import Mathlib

/-!
Shallow embedding of the chameleon PNG decoder's DEFLATE / prefix-code /
scanline-defilter core (src/compression/prefix.rs, src/compression/inflate.rs,
src/formats/png.rs), together with theorems settling the frozen claims.

Machine integers are modelled as `Nat` with explicit `% 2^w` where the Rust
code can wrap, uniformly using release semantics — this includes the `usize`
subtraction `output.len() - distance` in the LZ77 copy, which wraps rather
than panics in release builds.  Operations that panic in every Rust build
profile (slice or vector indexing out of range, `Option::unwrap` on `None`)
are modelled as explicit failure outcomes.
-/

namespace Chameleon

/-! ## Tables from src/compression/prefix.rs -/

/-- Code lengths from section 3.2.6 of RFC 1951 (`FIXED_CODE_LENGTHS`):
symbols 0-143 have length 8, 144-255 length 9, 256-279 length 7,
280-287 length 8 (the source writes the 288 entries literally). -/
def FIXED_CODE_LENGTHS : List Nat :=
  List.replicate 144 8 ++ List.replicate 112 9 ++ List.replicate 24 7 ++ List.replicate 8 8

/-- The number of extra bits each length code has (`LENGTH_EXTRA_BITS`; the
source writes each table as one literal array, split here into appended
chunks of the same values). -/
def LENGTH_EXTRA_BITS : List Nat :=
  [0, 0, 0, 0, 0, 0, 0] ++ [0, 1, 1, 1, 1, 2, 2] ++ [2, 2, 3, 3, 3, 3, 4] ++
    [4, 4, 4, 5, 5, 5, 5] ++ [0]

/-- The base length value of each length code (`LENGTH_BASE`). -/
def LENGTH_BASE : List Nat :=
  [3, 4, 5, 6, 7, 8, 9] ++ [10, 11, 13, 15, 17, 19, 23] ++ [27, 31, 35, 43, 51, 59, 67] ++
    [83, 99, 115, 131, 163, 195, 227] ++ [258]

/-- The number of extra bits each distance code has (`DISTANCE_EXTRA_BITS`). -/
def DISTANCE_EXTRA_BITS : List Nat :=
  [0, 0, 0, 0, 1, 1, 2] ++ [2, 3, 3, 4, 4, 5, 5] ++ [6, 6, 7, 7, 8, 8, 9] ++
    [9, 10, 10, 11, 11, 12, 12] ++ [13, 13]

/-- The base value of each distance code (`DISTANCE_BASE`). -/
def DISTANCE_BASE : List Nat :=
  [1, 2, 3, 4, 5, 7, 9] ++ [13, 17, 25, 33, 49, 65, 97] ++ [129, 193, 257, 385, 513, 769, 1025] ++
    [1537, 2049, 3073, 4097, 6145, 8193, 12289] ++ [16385, 24577]

/-! ## Code (src/compression/prefix.rs)

The `index` field of the Rust struct is iterator state used only by the
(unused in the decode path) `Iterator` impl, and is ignored by the custom
`PartialEq`/`Ord` impls, so it is omitted here.  Equality of `Code`s compares
`buffer` and `length`, exactly as the source's `PartialEq`. -/

/-- A prefix code: `buffer` is a `u16` bit buffer, `length` (a `u8`) says how
many of its low bits are part of the code. -/
structure Code where
  buffer : Nat
  length : Nat
deriving DecidableEq, Repr

/-- Embeds `Code::new()`: all fields zero. -/
def Code.new : Code := ⟨0, 0⟩

/-- Embeds `Code::from(buffer, length)`. -/
def Code.fromParts (buffer length : Nat) : Code := ⟨buffer, length⟩

/-- Embeds `Code::push_bit(bit)`: a non-binary argument is normalized to 1, then
`buffer = (buffer << 1) | bit` (u16, high bit discarded) and `length += 1`
(u8, wraps in release builds). -/
def Code.push_bit (c : Code) (bit : Nat) : Code :=
  let normalized : Nat := if bit = 0 then 0 else 1
  ⟨(c.buffer * 2 + normalized) % 65536, (c.length + 1) % 256⟩

/-- Strict key order of the `BTreeMap<Code, usize>`: the source's `Ord for
Code` compares `buffer` first, then `length`. -/
def Code.keyLt (a b : Code) : Bool :=
  Nat.blt a.buffer b.buffer || (a.buffer == b.buffer && Nat.blt a.length b.length)

/-- Insertion into the `BTreeMap<Code, usize>`, modelled as a sorted
association list: an equal key is overwritten, otherwise the pair is placed
at its ordered position. -/
def btInsert : List (Code × Nat) → Code → Nat → List (Code × Nat)
  | [], k, v => [(k, v)]
  | (k', v') :: rest, k, v =>
    if Code.keyLt k k' then (k, v) :: (k', v') :: rest
    else if k = k' then (k, v) :: rest
    else (k', v') :: btInsert rest k v

/-- A struct wrapping the `BTreeMap<Code, usize>` (`PrefixCodeMap`). -/
structure PrefixCodeMap where
  map : List (Code × Nat)
deriving DecidableEq, Repr

/-- Embeds `self.map.get(&code)` on the `BTreeMap`. -/
def PrefixCodeMap.get (m : PrefixCodeMap) (c : Code) : Option Nat :=
  (m.map.find? (fun p => p.1 == c)).map (fun p => p.2)

/-! ## PrefixCodeMap::from_lengths (src/compression/prefix.rs lines 200-237) -/

/-- The `occurances` array after the counting fold and the `occurances[0] = 0`
reset: `occurances[k]` is the number of entries equal to `k`, accumulated with
`u16::saturating_add`. -/
def occurancesOf (code_lengths : List Nat) : Nat → Nat :=
  fun k => if k = 0 then 0 else min (code_lengths.count k) 65535

/-- Value of the `code` accumulator after `i` iterations of the `next_code`
loop: `code = (code + occurances[i-1]) << 1` on `u16` (wraps in release
builds), with `next_code[i] = code`; `next_code[0]` keeps its initial 0. -/
def nextCodeVal (occ : Nat → Nat) : Nat → Nat
  | 0 => 0
  | i + 1 => (nextCodeVal occ i + occ i) * 2 % 65536

/-- The assignment loop: for each symbol `j` in index order with nonzero
length, `codes[j] = Some(next_code[len])` and `next_code[len] += 1` (`u16`,
wraps in release builds).  Returns the `codes` vector and the final
`next_code` vector. -/
def assignCodes (nc : List Nat) : List Nat → List (Option Nat) × List Nat
  | [] => ([], nc)
  | len :: rest =>
    if len = 0 then
      let r := assignCodes nc rest
      (none :: r.1, r.2)
    else
      let c := nc.getD len 0
      let r := assignCodes (nc.set len ((c + 1) % 65536)) rest
      (some c :: r.1, r.2)

/-- The map-building loop `for (index, code) in codes.iter().enumerate()`:
each assigned code is inserted as key `Code::from(code, code_lengths[index])`
with value `index`. -/
def buildMap (code_lengths : List Nat) : List (Option Nat) → Nat → List (Code × Nat) →
    List (Code × Nat)
  | [], _, m => m
  | none :: rest, index, m => buildMap code_lengths rest (index + 1) m
  | some c :: rest, index, m =>
    buildMap code_lengths rest (index + 1)
      (btInsert m (Code.fromParts c (code_lengths.getD index 0)) index)

/-- Embeds `PrefixCodeMap::from_lengths`.  `code_lengths.iter().max().unwrap()`
panics on an empty slice, modelled as `none`; all other steps are total. -/
def PrefixCodeMap.from_lengths (code_lengths : List Nat) : Option PrefixCodeMap :=
  if code_lengths.isEmpty then none
  else
    let max_length := code_lengths.foldl max 0
    let occurances := occurancesOf code_lengths
    let next_code := (List.range (max_length + 1)).map (nextCodeVal occurances)
    let codes := (assignCodes next_code code_lengths).1
    some ⟨buildMap code_lengths codes 0 []⟩

/-! ## Bitstream

Modelled from the spec: `BitVector64` lives in src/compression/bits.rs, which
is not part of the repository snapshot (only its users are).  Per spec
section 4.1, the reader owns an immutable byte buffer and a monotone bit
cursor `idx`, and the k-th bit ever produced equals `(buf[k/8] >> (k%8)) & 1`;
`DeflateStream::store` additionally reads the cursor as `self.bitstream.idx`. -/

/-- Modelled from the spec: the `BitVector64` bit reader of
src/compression/bits.rs (missing from the snapshot) — a byte buffer plus a
monotonically increasing bit cursor. -/
structure BitVector64 where
  buf : List Nat
  idx : Nat
deriving DecidableEq, Repr

/-- Modelled from the spec: `BitVector64::from_be_bytes` wraps the byte slice
with the cursor at bit 0. -/
def BitVector64.from_be_bytes (bytes : List Nat) : BitVector64 := ⟨bytes, 0⟩

/-- Modelled from the spec: `next()` yields bit `(buf[idx/8] >> (idx%8)) & 1`
and advances `idx`; once exhausted it yields `none`. -/
def BitVector64.next (bs : BitVector64) : Option Nat × BitVector64 :=
  if bs.idx < 8 * bs.buf.length then
    (some ((bs.buf.getD (bs.idx / 8) 0 >>> (bs.idx % 8)) % 2), ⟨bs.buf, bs.idx + 1⟩)
  else (none, bs)

/-- Embeds `Iterator::take(n)` collected: up to `n` bits, fewer once exhausted. -/
def BitVector64.takeBits : Nat → BitVector64 → List Nat × BitVector64
  | 0, bs => ([], bs)
  | n + 1, bs =>
    match bs.next with
    | (none, bs') => ([], bs')
    | (some b, bs') =>
      let r := BitVector64.takeBits n bs'
      (b :: r.1, r.2)

/-- Embeds `Iterator::skip(n)` as the inflater drives it (the skipped elements are
consumed from the underlying reader). -/
def BitVector64.skipBits (n : Nat) (bs : BitVector64) : BitVector64 :=
  (BitVector64.takeBits n bs).2

/-- The fold `bits.fold(0, |acc, bit| (acc << 1) | bit)` used throughout the
inflater (bits are 0 or 1, so `| bit` is `+ bit`). -/
def foldMsb (bits : List Nat) : Nat := bits.foldl (fun acc b => acc * 2 + b) 0

/-- Embeds `uW::reverse_bits()`: bit `i` of the result is bit `w - 1 - i` of the
argument, for a `w`-bit integer. -/
def revBits (w v : Nat) : Nat :=
  (List.range w).foldl (fun acc i => acc * 2 + v / 2 ^ i % 2) 0

/-! ## Inflater (src/compression/inflate.rs) -/

/-- The `DeflateError` enum of src/compression/inflate.rs. -/
inductive DeflateError where
  | invalidBlockError (s : String)
  | invalidSymbolError (v : Nat) (r : String)
  | decompressionError (s : String)
deriving DecidableEq, Repr

/-- How a run of the inflater can go wrong: a returned `DeflateError`, a Rust
panic (index out of range, `unwrap` of `None`, `usize` subtraction overflow),
or exhaustion of the fuel bounding the source's unbounded `while`/`loop`
constructs (which can genuinely spin forever on truncated input). -/
inductive RunError where
  | err (e : DeflateError)
  | panicked
  | outOfFuel
deriving DecidableEq, Repr

/-- The `DeflateStream` struct. -/
structure DeflateStream where
  compressed : List Nat
  decompressed : List Nat
  bitstream : BitVector64
  finished : Bool
deriving DecidableEq, Repr

/-- Embeds `DeflateStream::build`. -/
def DeflateStream.build (bytes : List Nat) : DeflateStream :=
  { compressed := bytes
    decompressed := []
    bitstream := BitVector64.from_be_bytes bytes
    finished := false }

/-- The LZ77 copy loop shared verbatim by `fixed` and `dynamic`:
`for idx in start_idx..end_idx { output.push(output[idx]) }`.  Every call
site reaches it with either an empty range or a start index inside the
buffer (a nonempty range starting beyond the buffer is modelled as the
`output[idx]` panic at the call site), so the reads rendered with `getD`
are always in range: each push grows the buffer by one while the read index
advances by one. -/
def pushCopy (output : List Nat) (startIdx endIdx : Nat) : List Nat :=
  go output startIdx (endIdx - startIdx)
where
  /-- Iterates `n` times, pushing `out[s]` and advancing `s`. -/
  go : List Nat → Nat → Nat → List Nat
  | out, _, 0 => out
  | out, s, n + 1 => go (out ++ [out.getD s 0]) (s + 1) n

/-- Embeds `DeflateStream::store` (lines 73-105): `skip(5)` to pass the rest of the
header byte, LEN and NLEN as reversed 16-bit folds, the complement check, and
a copy of `compressed[idx/8 .. idx/8 + len]` into the output.  Note the bit
cursor is left right after NLEN; it is never advanced past the stored bytes. -/
def DeflateStream.store (s : DeflateStream) : Except RunError DeflateStream :=
  let bs1 := (s.bitstream.skipBits 5)
  let r1 := bs1.takeBits 16
  let len := revBits 16 (foldMsb r1.1)
  let r2 := r1.2.takeBits 16
  let nlen := revBits 16 (foldMsb r2.1)
  if len ≠ 65535 - nlen then
    .error (.err (.invalidBlockError
      "Block type is 0, but NLEN is not the bitwise complement to LEN."))
  else
    let byte_idx := r2.2.idx / 8
    if byte_idx + len ≤ s.compressed.length then
      .ok { s with
            bitstream := r2.2
            decompressed := s.decompressed ++ ((s.compressed.drop byte_idx).take len) }
    else .error .panicked

/-- Embeds `DeflateStream::fixed`'s symbol loop (lines 114-172), with explicit fuel
for the `while let` loop.  On a literal the byte is pushed; on `257..=285` a
back-reference is decoded (length extra bits, a raw 5-bit distance code,
distance extra bits) and copied with the byte-at-a-time loop; 256 breaks; any
other matched symbol only resets the code buffer.  `DISTANCE_EXTRA_BITS
[distance]` panics for a 5-bit code of 30 or 31.  The copy bounds
`output.len() - distance` and `start_idx + length` are `usize` arithmetic
and wrap modulo `2^64` in release builds: when the distance exceeds the
output length the start index wraps to near `usize::MAX`, and the copy
range is then either empty (silently skipped, when
`length >= distance - output.len()`) or starts beyond the buffer, where
`output[idx]` panics. -/
def DeflateStream.fixedLoop (m : PrefixCodeMap) :
    Nat → BitVector64 → Code → List Nat → Except RunError (BitVector64 × List Nat)
  | 0, _, _, _ => .error .outOfFuel
  | fuel + 1, bs, code_buf, output =>
    match bs.next with
    | (none, bs') => .ok (bs', output)
    | (some bit, bs') =>
      let code_buf := code_buf.push_bit bit
      match m.get code_buf with
      | none => DeflateStream.fixedLoop m fuel bs' code_buf output
      | some value =>
        if value < 256 then
          DeflateStream.fixedLoop m fuel bs' Code.new (output ++ [value])
        else if 257 ≤ value ∧ value ≤ 285 then
          let length0 := LENGTH_BASE.getD (value - 257) 0
          let len_extra := LENGTH_EXTRA_BITS.getD (value - 257) 0
          let rl := if 0 < len_extra then
              let t := bs'.takeBits len_extra
              (t.2, length0 + revBits 16 (foldMsb t.1) / 2 ^ (16 - len_extra))
            else (bs', length0)
          let t5 := rl.1.takeBits 5
          let distCode := foldMsb t5.1
          if 30 ≤ distCode then .error .panicked
          else
            let dist_extra := DISTANCE_EXTRA_BITS.getD distCode 0
            let dist_base := DISTANCE_BASE.getD distCode 0
            let rd := if 0 < dist_extra then
                let t := t5.2.takeBits dist_extra
                (t.2, dist_base + revBits 16 (foldMsb t.1) / 2 ^ (16 - dist_extra))
              else (t5.2, dist_base)
            let start_idx := (output.length + 2 ^ 64 - rd.2) % 2 ^ 64
            let end_idx := (start_idx + rl.2) % 2 ^ 64
            if start_idx < end_idx ∧ output.length ≤ start_idx then .error .panicked
            else
              DeflateStream.fixedLoop m fuel rd.1 Code.new
                (pushCopy output start_idx end_idx)
        else if value = 256 then .ok (bs', output)
        else DeflateStream.fixedLoop m fuel bs' Code.new output

/-- Embeds `DeflateStream::fixed` (lines 106-179): build the fixed table, run the
symbol loop, flush `output` into `decompressed` as `u8` (`**x as u8`). -/
def DeflateStream.fixed (s : DeflateStream) : Except RunError DeflateStream :=
  match PrefixCodeMap.from_lengths FIXED_CODE_LENGTHS with
  | none => .error .panicked
  | some code_map =>
    match DeflateStream.fixedLoop code_map (8 * s.compressed.length + 64)
        s.bitstream Code.new [] with
    | .error e => .error e
    | .ok (bs, output) =>
      .ok { s with bitstream := bs
                   decompressed := s.decompressed ++ output.map (· % 256) }

/-- The chunk splitter `cl_len_vec.chunks(3)` (the final chunk may be
shorter). -/
def chunks3 : List Nat → List (List Nat)
  | [] => []
  | [a] => [[a]]
  | [a, b] => [[a, b]]
  | a :: b :: c :: rest => [a, b, c] :: chunks3 rest

/-- The permuted placement of code-length code lengths (lines 227-250):
`cl_lengths_sorted[i] = cl_lengths[clSortedIndex i]`; the default arm of the
source's `match` writes 0, reproduced here by an out-of-range index read
through `getD`. -/
def clSortedIndex : Nat → Nat
  | 16 => 0 | 17 => 1 | 18 => 2 | 0 => 3 | 8 => 4 | 7 => 5 | 9 => 6 | 6 => 7
  | 10 => 8 | 5 => 9 | 11 => 10 | 4 => 11 | 12 => 12 | 3 => 13 | 13 => 14
  | 2 => 15 | 14 => 16 | 1 => 17 | 15 => 18 | _ => 19

/-- The code-length decoding loop (lines 257-291): decode symbols with the
code-length map until `hlit + 257 + hdist + 1` lengths are emitted.  Symbols
below 16 are emitted literally; 16 repeats `code_lengths.last().unwrap()`
(a panic when nothing was emitted yet) `3 + extra` times; 17 and 18 append
zeros.  On an exhausted bitstream the source's `while` spins forever, modelled
by fuel exhaustion. -/
def DeflateStream.clLoop (m : PrefixCodeMap) (target : Nat) :
    Nat → BitVector64 → Code → List Nat → Except RunError (BitVector64 × List Nat)
  | 0, _, _, _ => .error .outOfFuel
  | fuel + 1, bs, code_buf, code_lengths =>
    if code_lengths.length < target then
      match bs.next with
      | (none, bs') => DeflateStream.clLoop m target fuel bs' code_buf code_lengths
      | (some bit, bs') =>
        let code_buf := code_buf.push_bit bit
        match m.get code_buf with
        | none => DeflateStream.clLoop m target fuel bs' code_buf code_lengths
        | some symbol =>
          if symbol < 16 then
            DeflateStream.clLoop m target fuel bs' Code.new (code_lengths ++ [symbol])
          else if symbol ≤ 18 then
            let p := if symbol = 16 then (2, 3) else if symbol = 17 then (3, 3) else (7, 11)
            let t := bs'.takeBits p.1
            let extra := revBits 8 (foldMsb t.1) / 2 ^ (8 - p.1)
            if symbol = 16 then
              match code_lengths.getLast? with
              | none => .error .panicked
              | some lastLen =>
                DeflateStream.clLoop m target fuel t.2 Code.new
                  (code_lengths ++ List.replicate (p.2 + extra) lastLen)
            else
              DeflateStream.clLoop m target fuel t.2 Code.new
                (code_lengths ++ List.replicate (p.2 + extra) 0)
          else DeflateStream.clLoop m target fuel bs' Code.new code_lengths
    else .ok (bs, code_lengths)

/-- The distance-code loop of `dynamic` (lines 321-330).  `dist_buf` is
re-created *inside* the loop, so it only ever holds a single bit; on an
exhausted bitstream the `loop` spins forever (fuel). -/
def DeflateStream.distLoop (dm : PrefixCodeMap) :
    Nat → BitVector64 → Except RunError (BitVector64 × Nat)
  | 0, _ => .error .outOfFuel
  | fuel + 1, bs =>
    match bs.next with
    | (none, bs') => DeflateStream.distLoop dm fuel bs'
    | (some bit, bs') =>
      let dist_buf := Code.new.push_bit bit
      match dm.get dist_buf with
      | some d => .ok (bs', d)
      | none => DeflateStream.distLoop dm fuel bs'

/-- The dynamic-block symbol loop (lines 298-358).  Note the source matches
back-references with the *exclusive* range `257..285`: symbol 285 falls
through every arm and is silently discarded. -/
def DeflateStream.dynLoop (ll dist : PrefixCodeMap) :
    Nat → BitVector64 → Code → List Nat → Except RunError (BitVector64 × List Nat)
  | 0, _, _, _ => .error .outOfFuel
  | fuel + 1, bs, ll_buf, output =>
    match bs.next with
    | (none, bs') => .ok (bs', output)
    | (some bit, bs') =>
      let ll_buf := ll_buf.push_bit bit
      match ll.get ll_buf with
      | none => DeflateStream.dynLoop ll dist fuel bs' ll_buf output
      | some symbol =>
        if symbol < 256 then
          DeflateStream.dynLoop ll dist fuel bs' Code.new (output ++ [symbol])
        else if 257 ≤ symbol ∧ symbol < 285 then
          let length0 := LENGTH_BASE.getD (symbol - 257) 0
          let len_extra := LENGTH_EXTRA_BITS.getD (symbol - 257) 0
          let rl := if 0 < len_extra then
              let t := bs'.takeBits len_extra
              (t.2, length0 + revBits 16 (foldMsb t.1) / 2 ^ (16 - len_extra))
            else (bs', length0)
          match DeflateStream.distLoop dist fuel rl.1 with
          | .error e => .error e
          | .ok (bs2, d) =>
            if 30 ≤ d then .error .panicked
            else
              let dist_extra := DISTANCE_EXTRA_BITS.getD d 0
              let dist_base := DISTANCE_BASE.getD d 0
              let rd := if 0 < dist_extra then
                  let t := bs2.takeBits dist_extra
                  (t.2, dist_base + revBits 16 (foldMsb t.1) / 2 ^ (16 - dist_extra))
                else (bs2, dist_base)
              let start_idx := (output.length + 2 ^ 64 - rd.2) % 2 ^ 64
              let end_idx := (start_idx + rl.2) % 2 ^ 64
              if start_idx < end_idx ∧ output.length ≤ start_idx then .error .panicked
              else
                DeflateStream.dynLoop ll dist fuel rd.1 Code.new
                  (pushCopy output start_idx end_idx)
        else if symbol = 256 then .ok (bs', output)
        else DeflateStream.dynLoop ll dist fuel bs' Code.new output

/-- Embeds `DeflateStream::dynamic` (lines 180-365): HLIT/HDIST/HCLEN, the permuted
code-length code lengths, the code-length table, the code-length decoding
loop, the literal/length and distance tables, and the symbol loop. -/
def DeflateStream.dynamic (s : DeflateStream) : Except RunError DeflateStream :=
  let t1 := s.bitstream.takeBits 5
  let hlit := revBits 16 (foldMsb t1.1) / 2 ^ 11
  let t2 := t1.2.takeBits 5
  let hdist := revBits 8 (foldMsb t2.1) / 2 ^ 3
  let t3 := t2.2.takeBits 4
  let hclen := revBits 8 (foldMsb t3.1) / 2 ^ 4
  let t4 := t3.2.takeBits ((hclen + 4) * 3)
  let cl_lengths := (chunks3 t4.1).map (fun chunk => foldMsb chunk.reverse)
  let cl_lengths_sorted := (List.range 19).map (fun i => cl_lengths.getD (clSortedIndex i) 0)
  match PrefixCodeMap.from_lengths cl_lengths_sorted with
  | none => .error .panicked
  | some code_length_map =>
    match DeflateStream.clLoop code_length_map (hlit + 257 + hdist + 1)
        (8 * s.compressed.length + 64) t4.2 Code.new [] with
    | .error e => .error e
    | .ok (bs5, code_lengths) =>
      match PrefixCodeMap.from_lengths (code_lengths.take (hlit + 257)),
            PrefixCodeMap.from_lengths (code_lengths.drop (hlit + 257)) with
      | some ll, some dist =>
        match DeflateStream.dynLoop ll dist (8 * s.compressed.length + 64)
            bs5 Code.new [] with
        | .error e => .error e
        | .ok (bs6, output) =>
          .ok { s with bitstream := bs6
                       decompressed := s.decompressed ++ output.map (· % 256) }
      | _, _ => .error .panicked

/-- The block loop of `DeflateStream::decompress` (lines 56-72): read the
3-bit header (`header[0]` panics when fewer than 3 bits remain), set
`finished` from BFINAL, dispatch on the BTYPE bit pair. -/
def DeflateStream.decompressLoop : Nat → DeflateStream → Except RunError DeflateStream
  | 0, _ => .error .outOfFuel
  | fuel + 1, s =>
    if s.finished then .ok s
    else
      let t := s.bitstream.takeBits 3
      match t.1 with
      | [b0, b1, b2] =>
        let s' : DeflateStream := { s with bitstream := t.2, finished := b0 == 1 }
        match b1, b2 with
        | 0, 0 =>
          match s'.store with
          | .error e => .error e
          | .ok s2 => DeflateStream.decompressLoop fuel s2
        | 1, 0 =>
          match s'.fixed with
          | .error e => .error e
          | .ok s2 => DeflateStream.decompressLoop fuel s2
        | 0, 1 =>
          match s'.dynamic with
          | .error e => .error e
          | .ok s2 => DeflateStream.decompressLoop fuel s2
        | _, _ => .error (.err (.invalidBlockError "Invalid block type."))
      | _ => .error .panicked

/-- Embeds `DeflateStream::decompress`: run blocks until the BFINAL block completes,
then return the decompressed bytes. -/
def DeflateStream.decompress (s : DeflateStream) : Except RunError (List Nat) :=
  match DeflateStream.decompressLoop (8 * s.compressed.length + 8) s with
  | .error e => .error e
  | .ok s' => .ok s'.decompressed

/-! ## Scanline defilters (src/formats/png.rs lines 396-455)

Bytes are `Nat`s below 256; `u8::wrapping_add` is `% 256`.  List indexing
that can panic in Rust (`buf[i - bpp]` with an empty buffer when `bpp = 0`,
`last[i]` on a short prior row) is modelled with `Option`. -/

/-- Embeds `rfsub`'s loop, carrying the reconstruction buffer: `left` is
`buf[i - bpp]` when `i >= bpp` (a panicking index when `bpp = 0`), else 0. -/
def rfsubGo (bpp : Nat) : List Nat → Nat → List Nat → Option (List Nat)
  | [], _, buf => some buf
  | byte :: rest, i, buf =>
    match (if bpp ≤ i then buf.get? (i - bpp) else some 0) with
    | none => none
    | some left => rfsubGo bpp rest (i + 1) (buf ++ [(byte + left) % 256])

/-- Embeds `rfsub(scanline, bpp)`. -/
def rfsub (scanline : List Nat) (bpp : Nat) : Option (List Nat) :=
  rfsubGo bpp scanline 0 []

/-- Embeds `rfup`'s map, indexing the prior row (`last[i]` panics when the prior row
is shorter than the scanline). -/
def rfupGo (last : List Nat) : List Nat → Nat → Option (List Nat)
  | [], _ => some []
  | byte :: rest, i =>
    match last.get? i with
    | none => none
    | some above =>
      match rfupGo last rest (i + 1) with
      | none => none
      | some tail => some ((byte + above) % 256 :: tail)

/-- Embeds `rfup(scanline, last)`. -/
def rfup (scanline last : List Nat) : Option (List Nat) :=
  rfupGo last scanline 0

/-- Embeds `rfaverage`'s map.  Note the two divergences from the PNG specification
present in the source: `left` is read from the *raw* `scanline`
(`scanline[i - bpp]`), not from the reconstructed bytes, and `left + above`
is a `u8` addition (wraps modulo 256 in release builds; overflow panic in
debug), hence the `% 256` inside the average. -/
def rfaverageGo (scanline last : List Nat) (bpp : Nat) : List Nat → Nat → Option (List Nat)
  | [], _ => some []
  | byte :: rest, i =>
    let left := if bpp ≤ i then scanline.getD (i - bpp) 0 else 0
    match last.get? i with
    | none => none
    | some above =>
      match rfaverageGo scanline last bpp rest (i + 1) with
      | none => none
      | some tail => some ((byte + (left + above) % 256 / 2) % 256 :: tail)

/-- Embeds `rfaverage(scanline, last, bpp)`. -/
def rfaverage (scanline last : List Nat) (bpp : Nat) : Option (List Nat) :=
  rfaverageGo scanline last bpp scanline 0

/-- Embeds `fpaeth(left, above, upper_left)`: the Paeth predictor, computed in `i16`
(`Int` here) with `abs_diff` distances and ties broken `a`, then `b`,
then `c`. -/
def fpaeth (left above upper_left : Nat) : Nat :=
  let a : Int := left
  let b : Int := above
  let c : Int := upper_left
  let p := a + b - c
  let pa := (p - a).natAbs
  let pb := (p - b).natAbs
  let pc := (p - c).natAbs
  if pa ≤ pb ∧ pa ≤ pc then left
  else if pb ≤ pc then above
  else upper_left

/-- Embeds `rfpaeth`'s loop, carrying the reconstruction buffer `buf`: `left` is
`buf[i - bpp]`, `above` is `last[i]`, `upper_left` is `last[i - bpp]`. -/
def rfpaethGo (last : List Nat) (bpp : Nat) : List Nat → Nat → List Nat → Option (List Nat)
  | [], _, buf => some buf
  | byte :: rest, i, buf =>
    match (if bpp ≤ i then buf.get? (i - bpp) else some 0), last.get? i,
          (if bpp ≤ i then last.get? (i - bpp) else some 0) with
    | some left, some above, some upper_left =>
      rfpaethGo last bpp rest (i + 1) (buf ++ [(byte + fpaeth left above upper_left) % 256])
    | _, _, _ => none

/-- Embeds `rfpaeth(scanline, last, bpp)`. -/
def rfpaeth (scanline last : List Nat) (bpp : Nat) : Option (List Nat) :=
  rfpaethGo last bpp scanline 0 []

/-! ## The defiltering stage of Png::rgb (src/formats/png.rs lines 171-208) -/

/-- Embeds `data.chunks(n)` (`n > 0`; driven by a fuel that the callers set to the
list length). -/
def chunksGo (n : Nat) : Nat → List Nat → List (List Nat)
  | 0, _ => []
  | _, [] => []
  | fuel + 1, l => l.take n :: chunksGo n fuel (l.drop n)

/-- Embeds `data.chunks(n)` collected into a vector of scanlines. -/
def chunksN (n : Nat) (l : List Nat) : List (List Nat) :=
  chunksGo n l.length l

/-- The `for scanline in scanlines` loop of `Png::rgb`: dispatch on the
filter byte (`scanline[0]`, a panic on an empty chunk), push the defiltered
row for filters 0-4, *silently skip the row for any other filter byte*
(`_ => {}`), then `last = defiltered_scanlines.last().unwrap().clone()`
(a panic when no row has been produced yet). -/
def scanlineLoop (bpp : Nat) : List (List Nat) → List Nat → List (List Nat) →
    Option (List (List Nat))
  | [], _, defiltered => some defiltered
  | scanline :: rest, last, defiltered =>
    match scanline.head? with
    | none => none
    | some filterByte =>
      let newRow : Option (Option (List Nat)) :=
        match filterByte with
        | 0 => some (some (scanline.drop 1))
        | 1 => (rfsub (scanline.drop 1) bpp).map some
        | 2 => (rfup (scanline.drop 1) last).map some
        | 3 => (rfaverage (scanline.drop 1) last bpp).map some
        | 4 => (rfpaeth (scanline.drop 1) last bpp).map some
        | _ => some none
      match newRow with
      | none => none
      | some orow =>
        let defiltered' := match orow with
          | some row => defiltered ++ [row]
          | none => defiltered
        match defiltered'.getLast? with
        | none => none
        | some l => scanlineLoop bpp rest l defiltered'

/-- The output loop of `Png::rgb`: each defiltered row is split into chunks
of 3 and read as `(values[0], values[1], values[2])` (panics on a chunk
shorter than 3). -/
def tuplesOfRow (row : List Nat) : Option (List (Nat × Nat × Nat)) :=
  (chunksN 3 row).foldr (fun values acc =>
    match values.get? 0, values.get? 1, values.get? 2, acc with
    | some v0, some v1, some v2, some rest => some ((v0, v1, v2) :: rest)
    | _, _, _, _ => none) (some [])

/-- The defiltering-and-output stage of `Png::rgb` (everything after the
zlib decompression), for decompressed bytes `data`, image width `width`,
`samples` samples per pixel and `bpp` bytes per pixel: split into scanlines
of `samples * width + 1` bytes, run the defilter loop starting from an
all-zero prior row, then emit the `(u8, u8, u8)` tuples row by row. -/
def rgbScanlines (data : List Nat) (width samples bpp : Nat) :
    Option (List (Nat × Nat × Nat)) :=
  let scanlines := chunksN (samples * width + 1) data
  match scanlineLoop bpp scanlines (List.replicate (samples * width) 0) [] with
  | none => none
  | some rows =>
    rows.foldr (fun row acc =>
      match tuplesOfRow row, acc with
      | some t, some rest => some (t ++ rest)
      | _, _ => none) (some [])

/-! ## Definitions taken from the specification's wording, for comparison
with the source-derived definitions above -/

/-- Modelled from the spec: the canonical code value the construction
algorithm assigns to symbol `i` of length vector `L` — `next_code[L[i]]`
after the increments for the earlier symbols of the same length, on the
`u16` counters. -/
def codeAt (L : List Nat) (i : Nat) : Nat :=
  (nextCodeVal (occurancesOf L) (L.getD i 0) + (L.take i).count (L.getD i 0)) % 65536

/-- Modelled from the spec: the Kraft sum of the non-zero entries, scaled by
`2 ^ 15` (lengths are at most 15 in DEFLATE, so `Σ 2 ^ (-L i) ≤ 1` becomes
`Σ 2 ^ (15 - L i) ≤ 2 ^ 15`). -/
def kraftSum (L : List Nat) : Nat :=
  ((L.filter (fun k => k != 0)).map (fun k => 2 ^ (15 - k))).sum

/-- Modelled from the spec: the bytes appended by a back-reference under
byte-at-a-time copy semantics — byte `i` of the appended run is the byte
`distance` positions back in the stream produced so far, i.e. the cyclic
repetition of the final `distance` bytes of the prior output. -/
def lz77Expansion (output : List Nat) (distance length : Nat) : List Nat :=
  (List.range length).map
    (fun i => output.getD (output.length - distance + i % distance) 0)

/-- Modelled from the spec: the Average defilter row as specified,
`recon[i] = (raw[i] + (a + b) / 2) % 256` with `a = recon[i - bpp]` (0 when
`i < bpp`) read from the *reconstructed* row and the sum `a + b` computed on
unbounded integers before the halving. -/
def specAverageRow (raw prior : List Nat) (bpp : Nat) : List Nat :=
  go raw 0 []
where
  /-- Recursion over the raw bytes, carrying the reconstructed bytes. -/
  go : List Nat → Nat → List Nat → List Nat
  | [], _, recon => recon
  | byte :: rest, i, recon =>
    let a := if bpp ≤ i then recon.getD (i - bpp) 0 else 0
    let b := prior.getD i 0
    go rest (i + 1) (recon ++ [(byte + (a + b) / 2) % 256])

/-- Modelled from the spec: the forward Paeth filter,
`filt[i] = (raw[i] - PaethPredictor(a, b, c)) mod 256` with
`a = raw[i - bpp]` (0 when `i < bpp`), `b = prior[i]`,
`c = prior[i - bpp]` (0 when `i < bpp`); the subtraction is expressed as
`+ 256 -` on naturals (the predictor is one of `a`, `b`, `c`, hence below
256 for byte inputs). -/
def fpaethForward (raw prior : List Nat) (bpp : Nat) : List Nat :=
  (List.range raw.length).map (fun i =>
    let a := if bpp ≤ i then raw.getD (i - bpp) 0 else 0
    let b := prior.getD i 0
    let c := if bpp ≤ i then prior.getD (i - bpp) 0 else 0
    (raw.getD i 0 + 256 - fpaeth a b c) % 256)

/-- Modelled from the spec: a functional mirror of the assignment loop used
to reason about `assignCodes` — the running `next_code` counters are carried
as a function that is bumped at the length of each assigned symbol. -/
def codesSpecGo (f : Nat → Nat) : List Nat → List (Option Nat)
  | [] => []
  | len :: rest =>
    if len = 0 then none :: codesSpecGo f rest
    else some (f len % 65536) ::
      codesSpecGo (fun k => if k = len then f k + 1 else f k) rest

/-! ## Claim theorems -/

set_option maxRecDepth 1000000

example :
    PrefixCodeMap.from_lengths [2, 1, 3, 3] =
      some ⟨[(⟨0, 1⟩, 1), (⟨2, 2⟩, 0), (⟨6, 3⟩, 2), (⟨7, 3⟩, 3)]⟩ := by
  decide

/-- Claim C1, counterexample: the empty length vector satisfies the Kraft
hypothesis vacuously, yet `PrefixCodeMap::from_lengths` does not succeed on
it — `code_lengths.iter().max().unwrap()` panics on an empty slice. -/
theorem C1_counterexample :
    kraftSum [] ≤ 2 ^ 15 ∧ PrefixCodeMap.from_lengths [] = none :=
  ⟨Nat.zero_le _, rfl⟩

/-- Claim C2 (failing input): the 14-byte stream encodes a final dynamic
block (BFINAL=1, BTYPE=10) with HLIT=29, HDIST=0, HCLEN=14, whose
literal/length table assigns codes to exactly the symbols 0 (length 2),
256 (length 1) and 285 (length 2), and whose symbol stream is the code for
285 followed by the end-of-block code 256.  The claim requires symbol 285 to
produce a back-reference of base length 258; the source's dynamic symbol
loop instead matches back-references with the exclusive range `257..285`,
so the symbol falls through every arm and decompression returns
successfully with empty output. -/
theorem C2_dynamic_symbol_285_ignored :
    (DeflateStream.build
        [237, 192, 1, 9, 0, 0, 0, 128, 160, 254, 175, 246, 72, 12]).decompress =
      .ok [] := rfl

/-- Claim C3 (failing input): the bytes `[0x03, 0x02]` encode a final fixed
block whose first symbol is 257 (copy of length 3) followed by distance
code 0 (distance 1) while the output is still empty.  The claim requires a
fatal `BackRefOutOfRange` error; the source has no such error variant at
all.  In release builds `output.len() - distance` wraps (`0 - 1` becomes
`usize::MAX`), `end_idx` wraps to 2, the copy range `usize::MAX..2` is
empty, and decompression continues and returns `Ok([])` — silent wrong
output with the back-reference dropped, no error of any kind (in debug
builds the subtraction would panic instead; neither profile reports
`BackRefOutOfRange`). -/
theorem C3_backref_beyond_output_silent :
    (DeflateStream.build [3, 2]).decompress = .ok [] := rfl

/-- Claim C5 (failing input): two consecutive stored blocks — a non-final
stored block carrying the two bytes `48 69` ("Hi") followed by a final
stored block of length 0.  After the first block the source leaves the bit
cursor immediately after NLEN instead of advancing it by `LEN*8`, so the
second block header is read from *inside* the stored data and decoding
fails with an `InvalidBlock` error instead of producing `48 69`.  The first
conjunct shows a single final stored block at the start of the stream (where
`skip(5)` happens to land on the byte boundary) does produce its LEN bytes. -/
theorem C5_stored_block_cursor_not_advanced :
    (DeflateStream.build [1, 2, 0, 253, 255, 72, 105]).decompress = .ok [72, 105] ∧
    (DeflateStream.build [0, 2, 0, 253, 255, 72, 105, 1, 0, 0, 255, 255]).decompress =
      .error (.err (.invalidBlockError
        "Block type is 0, but NLEN is not the bitwise complement to LEN.")) :=
  ⟨rfl, rfl⟩

/-- Claim C6 (failing input): a final dynamic block with HLIT=HDIST=HCLEN=0
whose code-length table assigns length-2 codes to the symbols 0, 16, 17, 18,
and whose first decoded code-length symbol is 16 (repeat previous length)
before any length has been emitted.  The claim requires a fatal
`InvalidSymbol` error; the source executes
`code_lengths.last().unwrap()` on the empty vector and panics instead. -/
theorem C6_repeat_with_no_previous_length_panics :
    (DeflateStream.build [5, 0, 36, 73, 0]).decompress = .error .panicked := rfl

/-- Claim C7 (failing input): scanline `[200, 10]`, prior row `[100, 100]`,
`bpp = 1`.  The claim's formula gives `recon = [250, 185]` — at `i = 1` the
left neighbour is the reconstructed byte 250 and `(250 + 100) / 2 = 175` is
computed on at least 9 bits.  The source instead reads the left neighbour
from the *raw* scanline (`scanline[i - bpp] = 200`) and adds it to the prior
byte as a `u8` (`200 + 100` wraps to 44 in release builds and panics in
debug), yielding `recon = [250, 32]`. -/
theorem C7_average_filter_diverges :
    rfaverage [200, 10] [100, 100] 1 = some [250, 32] ∧
    specAverageRow [200, 10] [100, 100] 1 = [250, 185] ∧ (32 : Nat) ≠ 185 :=
  ⟨rfl, rfl, by decide⟩

/-- Claim C9 (failing input): decompressed data for a 1-pixel-wide RGB8
image whose first scanline has filter byte 0 and whose second scanline has
the invalid filter byte 5.  The claim requires decoding to fail with a
fatal error; the source's `match` has a silent `_ => {}` arm, so the second
row is dropped and `rgb` succeeds, returning only the first pixel.  (When
the *first* row carries the invalid byte the source panics on
`defiltered_scanlines.last().unwrap()` instead of reporting a decode
error.) -/
theorem C9_unknown_filter_byte_silently_skipped :
    rgbScanlines [0, 10, 20, 30, 5, 1, 2, 3] 1 3 3 = some [(10, 20, 30)] := rfl

/-! ## Claim C4: the copy loop realises run-length semantics -/

/-- Reading a mapped range through `getD` evaluates the function. -/
lemma getD_range_map (f : Nat → Nat) {m j : Nat} (h : j < m) :
    ((List.range m).map f).getD j 0 = f j := by
  rw [List.getD_eq_getElem _ _ (by simpa using h)]
  simp

/-- Invariant of the copy loop `for idx in start..end { output.push(output[idx]) }`:
starting from the original output extended by `k` copied bytes, `n` more
iterations extend it to `k + n` copied bytes, where the copied bytes repeat
the last `output.length - start` original bytes cyclically.  In particular
each iteration that reads inside the freshly written region reads exactly
the byte the byte-at-a-time semantics dictates. -/
lemma pushCopy_go_spec (output : List Nat) (start : Nat) (hs : start < output.length) :
    ∀ n k, pushCopy.go
        (output ++ (List.range k).map
          (fun i => output.getD (start + i % (output.length - start)) 0)) (start + k) n =
      output ++ (List.range (k + n)).map
        (fun i => output.getD (start + i % (output.length - start)) 0) := by
  intro n
  induction n with
  | zero => intro k; rw [pushCopy.go, Nat.add_zero]
  | succ n ih =>
    intro k
    have hd1 : 0 < output.length - start := by omega
    have hkey : (output ++ (List.range k).map
          (fun i => output.getD (start + i % (output.length - start)) 0)).getD
            (start + k) 0 =
        output.getD (start + k % (output.length - start)) 0 := by
      rcases lt_or_le k (output.length - start) with hk | hk
      · rw [List.getD_append _ _ _ _ (by omega)]
        rw [Nat.mod_eq_of_lt hk]
      · rw [List.getD_append_right _ _ _ _ (by omega)]
        have hidx : start + k - output.length = k - (output.length - start) := by omega
        rw [hidx, getD_range_map _ (by omega)]
        have hmod : (k - (output.length - start)) % (output.length - start) =
            k % (output.length - start) := by
          conv_rhs => rw [← Nat.sub_add_cancel hk, Nat.add_mod_right]
        rw [hmod]
    rw [pushCopy.go, hkey]
    have hsplit : (List.range (k + 1)).map
          (fun i => output.getD (start + i % (output.length - start)) 0) =
        (List.range k).map
          (fun i => output.getD (start + i % (output.length - start)) 0) ++
          [output.getD (start + k % (output.length - start)) 0] := by
      rw [List.range_succ, List.map_append]; rfl
    rw [List.append_assoc, ← hsplit]
    have harg : start + k + 1 = start + (k + 1) := by omega
    rw [harg, ih (k + 1)]
    have heq : k + 1 + n = k + (n + 1) := by omega
    rw [heq]

/-- Claim C4: for every back-reference with `1 ≤ distance ≤ output.length`
and `length > distance`, the source's copy loop appends exactly the
byte-at-a-time run-length expansion: freshly written bytes are read back
within the same operation, so the appended bytes are the cyclic repetition
of the final `distance` bytes of the prior output. -/
theorem C4_lz77_run_length (output : List Nat) (distance length : Nat)
    (h1 : 0 < distance) (h2 : distance ≤ output.length) (h3 : distance < length) :
    pushCopy output (output.length - distance) (output.length - distance + length) =
      output ++ lz77Expansion output distance length := by
  have hs : output.length - distance < output.length := by omega
  have hd : output.length - (output.length - distance) = distance := by omega
  have h := pushCopy_go_spec output (output.length - distance) hs length 0
  rw [hd] at h
  simpa [pushCopy, lz77Expansion, Nat.add_sub_cancel_left] using h

/-- Witness for claim C4 (the spec's own example): a distance-1, length-5
back-reference over an output ending in `A = 65` appends five copies of
that byte. -/
theorem C4_witness :
    (0 < 1 ∧ 1 ≤ ([65] : List Nat).length ∧ 1 < 5) ∧
    pushCopy [65] (([65] : List Nat).length - 1) (([65] : List Nat).length - 1 + 5) =
      [65] ++ lz77Expansion [65] 1 5 ∧
    [65] ++ lz77Expansion [65] 1 5 = [65, 65, 65, 65, 65, 65] :=
  ⟨by decide, C4_lz77_run_length [65] 1 5 (by decide) (by decide) (by decide), by decide⟩

/-! ## Claim C10: the defilters succeed and preserve the scanline length -/

/-- The `rfsub` loop extends its reconstruction buffer by exactly one byte
per input byte; with `bpp ≥ 1` the self-index `buf[i - bpp]` is always in
range. -/
lemma rfsubGo_length (bpp : Nat) (hbpp : 0 < bpp) :
    ∀ (rest buf : List Nat), ∃ r, rfsubGo bpp rest buf.length buf = some r ∧
      r.length = buf.length + rest.length := by
  intro rest
  induction rest with
  | nil => intro buf; exact ⟨buf, rfl, by simp⟩
  | cons byte rest ih =>
    intro buf
    rcases le_or_lt bpp buf.length with hle | hlt
    · have hidx : buf.length - bpp < buf.length := by omega
      cases hget : buf.get? (buf.length - bpp) with
      | none =>
        exact absurd (List.get?_eq_none.mp hget) (by omega)
      | some left =>
        obtain ⟨r, hr, hlen⟩ := ih (buf ++ [(byte + left) % 256])
        simp only [List.length_append, List.length_cons, List.length_nil] at hlen
        refine ⟨r, ?_, by simp only [List.length_cons]; omega⟩
        rw [rfsubGo, if_pos hle, hget]
        simpa using hr
    · obtain ⟨r, hr, hlen⟩ := ih (buf ++ [(byte + 0) % 256])
      simp only [List.length_append, List.length_cons, List.length_nil] at hlen
      refine ⟨r, ?_, by simp only [List.length_cons]; omega⟩
      rw [rfsubGo, if_neg (by omega)]
      simpa using hr

/-- The `rfup` map succeeds and preserves length when the prior row covers
the scanline. -/
lemma rfupGo_length (last : List Nat) :
    ∀ (rest : List Nat) (i : Nat), i + rest.length ≤ last.length →
      ∃ r, rfupGo last rest i = some r ∧ r.length = rest.length := by
  intro rest
  induction rest with
  | nil => intro i _; exact ⟨[], rfl, rfl⟩
  | cons byte rest ih =>
    intro i hi
    cases hget : last.get? i with
    | none => exact absurd (List.get?_eq_none.mp hget) (by simp at hi; omega)
    | some above =>
      obtain ⟨r, hr, hlen⟩ := ih (i + 1) (by simp at hi ⊢; omega)
      exact ⟨(byte + above) % 256 :: r, by rw [rfupGo, hget, hr], by simp [hlen]⟩

/-- The `rfaverage` map succeeds and preserves length when the prior row
covers the scanline (its left neighbour comes from the raw scanline through
`getD` and cannot panic). -/
lemma rfaverageGo_length (scanline last : List Nat) (bpp : Nat) :
    ∀ (rest : List Nat) (i : Nat), i + rest.length ≤ last.length →
      ∃ r, rfaverageGo scanline last bpp rest i = some r ∧ r.length = rest.length := by
  intro rest
  induction rest with
  | nil => intro i _; exact ⟨[], rfl, rfl⟩
  | cons byte rest ih =>
    intro i hi
    cases hget : last.get? i with
    | none => exact absurd (List.get?_eq_none.mp hget) (by simp at hi; omega)
    | some above =>
      obtain ⟨r, hr, hlen⟩ := ih (i + 1) (by simp at hi ⊢; omega)
      refine ⟨((byte + ((if bpp ≤ i then scanline.getD (i - bpp) 0 else 0) + above) % 256 / 2)
          % 256) :: r, ?_, by simp [hlen]⟩
      rw [rfaverageGo, hget, hr]

/-- The `rfpaeth` loop extends its reconstruction buffer by one byte per
input byte; with `bpp ≥ 1` and a prior row covering the scanline all three
neighbour reads are in range. -/
lemma rfpaethGo_length (last : List Nat) (bpp : Nat) (hbpp : 0 < bpp) :
    ∀ (rest buf : List Nat), buf.length + rest.length ≤ last.length →
      ∃ r, rfpaethGo last bpp rest buf.length buf = some r ∧
        r.length = buf.length + rest.length := by
  intro rest
  induction rest with
  | nil => intro buf _; exact ⟨buf, rfl, by simp⟩
  | cons byte rest ih =>
    intro buf hlen
    have hi : buf.length < last.length := by simp at hlen; omega
    cases habove : last.get? buf.length with
    | none => exact absurd (List.get?_eq_none.mp habove) (by omega)
    | some above =>
      rcases le_or_lt bpp buf.length with hle | hlt
      · cases hleft : buf.get? (buf.length - bpp) with
        | none => exact absurd (List.get?_eq_none.mp hleft) (by omega)
        | some left =>
          cases hul : last.get? (buf.length - bpp) with
          | none => exact absurd (List.get?_eq_none.mp hul) (by omega)
          | some upper_left =>
            obtain ⟨r, hr, hrlen⟩ :=
              ih (buf ++ [(byte + fpaeth left above upper_left) % 256])
                (by simp only [List.length_append, List.length_cons, List.length_nil]
                      at hlen ⊢
                    omega)
            simp only [List.length_append, List.length_cons, List.length_nil] at hrlen
            refine ⟨r, ?_, by simp only [List.length_cons]; omega⟩
            rw [rfpaethGo]
            simp only [if_pos hle, hleft, habove, hul]
            simpa using hr
      · obtain ⟨r, hr, hrlen⟩ :=
          ih (buf ++ [(byte + fpaeth 0 above 0) % 256])
            (by simp only [List.length_append, List.length_cons, List.length_nil] at hlen ⊢
                omega)
        simp only [List.length_append, List.length_cons, List.length_nil] at hrlen
        refine ⟨r, ?_, by simp only [List.length_cons]; omega⟩
        rw [rfpaethGo]
        simp only [if_neg (by omega : ¬ bpp ≤ buf.length), habove]
        simpa using hr

/-- Claim C10: with at least one byte per pixel (`bpp = 3` at the only call
site, and `bpp ≥ 1` for any actual pixel format) and a prior row at least as
long as the scanline, each of `rfsub`, `rfup`, `rfaverage` and `rfpaeth`
returns a vector whose length equals the input scanline's length. -/
theorem C10_defilters_preserve_length (scanline last : List Nat) (bpp : Nat)
    (hbpp : 0 < bpp) (hlen : scanline.length ≤ last.length) :
    (∃ r, rfsub scanline bpp = some r ∧ r.length = scanline.length) ∧
    (∃ r, rfup scanline last = some r ∧ r.length = scanline.length) ∧
    (∃ r, rfaverage scanline last bpp = some r ∧ r.length = scanline.length) ∧
    (∃ r, rfpaeth scanline last bpp = some r ∧ r.length = scanline.length) := by
  refine ⟨?_, ?_, ?_, ?_⟩
  · simpa [rfsub] using rfsubGo_length bpp hbpp scanline []
  · simpa [rfup] using rfupGo_length last scanline 0 (by omega)
  · simpa [rfaverage] using rfaverageGo_length scanline last bpp scanline 0 (by omega)
  · simpa [rfpaeth] using rfpaethGo_length last bpp hbpp scanline [] (by simpa using hlen)

/-- Witness for claim C10 at `scanline = [1, 250, 3]`, `last = [9, 8, 7]`,
`bpp = 1`. -/
theorem C10_witness :
    (0 < 1 ∧ ([1, 250, 3] : List Nat).length ≤ ([9, 8, 7] : List Nat).length) ∧
    ((∃ r, rfsub [1, 250, 3] 1 = some r ∧ r.length = ([1, 250, 3] : List Nat).length) ∧
     (∃ r, rfup [1, 250, 3] [9, 8, 7] = some r ∧ r.length = ([1, 250, 3] : List Nat).length) ∧
     (∃ r, rfaverage [1, 250, 3] [9, 8, 7] 1 = some r ∧
        r.length = ([1, 250, 3] : List Nat).length) ∧
     (∃ r, rfpaeth [1, 250, 3] [9, 8, 7] 1 = some r ∧
        r.length = ([1, 250, 3] : List Nat).length)) :=
  ⟨⟨by decide, by decide⟩,
   C10_defilters_preserve_length [1, 250, 3] [9, 8, 7] 1 (by decide) (by decide)⟩

/-! ## Claim C8: rfpaeth inverts the forward Paeth filter -/

/-- The Paeth predictor returns one of its three inputs, so it is a byte
whenever they are. -/
lemma fpaeth_lt (a b c : Nat) (ha : a < 256) (hb : b < 256) (hc : c < 256) :
    fpaeth a b c < 256 := by
  unfold fpaeth
  dsimp only
  split
  · exact ha
  split
  · exact hb
  · exact hc

/-- Stepping invariant for the roundtrip: if the reconstruction buffer holds
the first `i` original bytes, processing the remaining forward-filtered
bytes reconstructs the whole scanline. -/
lemma rfpaethGo_forward (raw prior : List Nat) (bpp : Nat)
    (hbpp : 0 < bpp) (hlen : raw.length ≤ prior.length)
    (hraw : ∀ x ∈ raw, x < 256) (hprior : ∀ x ∈ prior, x < 256) :
    ∀ k i, i + k = raw.length →
      rfpaethGo prior bpp ((fpaethForward raw prior bpp).drop i) i (raw.take i) =
        some raw := by
  have hflen : (fpaethForward raw prior bpp).length = raw.length := by
    simp [fpaethForward]
  intro k
  induction k with
  | zero =>
    intro i hi
    rw [List.drop_eq_nil_of_le (by omega), List.take_of_length_le (by omega)]
    rfl
  | succ k ih =>
    intro i hi
    have hilt : i < raw.length := by omega
    have hiprior : i < prior.length := by omega
    have hilen : i < (fpaethForward raw prior bpp).length := by omega
    have hdrop : (fpaethForward raw prior bpp).drop i =
        (fpaethForward raw prior bpp).get ⟨i, hilen⟩ ::
          (fpaethForward raw prior bpp).drop (i + 1) := by
      rw [List.drop_eq_getElem_cons hilen]
      rfl
    have hbyte : (fpaethForward raw prior bpp).get ⟨i, hilen⟩ =
        (raw.getD i 0 + 256 -
          fpaeth (if bpp ≤ i then raw.getD (i - bpp) 0 else 0) (prior.getD i 0)
            (if bpp ≤ i then prior.getD (i - bpp) 0 else 0)) % 256 := by
      simp [fpaethForward]
    rw [hdrop, hbyte]
    have hmemraw : ∀ j, j < raw.length → raw.getD j 0 < 256 := by
      intro j hj
      rw [List.getD_eq_getElem _ _ hj]
      exact hraw _ (List.getElem_mem hj)
    have hmemprior : ∀ j, j < prior.length → prior.getD j 0 < 256 := by
      intro j hj
      rw [List.getD_eq_getElem _ _ hj]
      exact hprior _ (List.getElem_mem hj)
    have hP : fpaeth (if bpp ≤ i then raw.getD (i - bpp) 0 else 0) (prior.getD i 0)
        (if bpp ≤ i then prior.getD (i - bpp) 0 else 0) < 256 := by
      apply fpaeth_lt
      · split
        · exact hmemraw _ (by omega)
        · omega
      · exact hmemprior _ hiprior
      · split
        · exact hmemprior _ (by omega)
        · omega
    have hx : raw.getD i 0 < 256 := hmemraw _ hilt
    have hadd : ((raw.getD i 0 + 256 -
        fpaeth (if bpp ≤ i then raw.getD (i - bpp) 0 else 0) (prior.getD i 0)
          (if bpp ≤ i then prior.getD (i - bpp) 0 else 0)) % 256 +
        fpaeth (if bpp ≤ i then raw.getD (i - bpp) 0 else 0) (prior.getD i 0)
          (if bpp ≤ i then prior.getD (i - bpp) 0 else 0)) % 256 = raw.getD i 0 := by
      omega
    have htake : raw.take i ++ [raw.getD i 0] = raw.take (i + 1) := by
      rw [List.take_succ, List.getD_eq_getElem _ _ hilt]
      simp [List.getElem?_eq_getElem hilt]
    rcases le_or_lt bpp i with hle | hlt
    · have hleft : (raw.take i).get? (i - bpp) = some (raw.getD (i - bpp) 0) := by
        rw [List.get?_take (by omega : i - bpp < i),
          List.getD_eq_getElem _ _ (show i - bpp < raw.length by omega),
          List.get?_eq_getElem?]
        exact List.getElem?_eq_getElem _
      have habove : prior.get? i = some (prior.getD i 0) := by
        rw [List.getD_eq_getElem _ _ hiprior, List.get?_eq_getElem?]
        exact List.getElem?_eq_getElem _
      have hul : prior.get? (i - bpp) = some (prior.getD (i - bpp) 0) := by
        rw [List.getD_eq_getElem _ _ (show i - bpp < prior.length by omega),
          List.get?_eq_getElem?]
        exact List.getElem?_eq_getElem _
      rw [rfpaethGo]
      simp only [if_pos hle, hleft, habove, hul, if_pos hle] at hadd ⊢
      rw [hadd, htake]
      exact ih (i + 1) (by omega)
    · have habove : prior.get? i = some (prior.getD i 0) := by
        rw [List.getD_eq_getElem _ _ hiprior, List.get?_eq_getElem?]
        exact List.getElem?_eq_getElem _
      rw [rfpaethGo]
      simp only [if_neg (by omega : ¬ bpp ≤ i), habove] at hadd ⊢
      rw [hadd, htake]
      exact ih (i + 1) (by omega)

/-- Claim C8: for every byte scanline `raw`, every byte prior row at least
as long, and any positive `bpp` (3 at the decoder's call site), the forward
Paeth filter followed by `rfpaeth` returns the original scanline. -/
theorem C8_paeth_roundtrip (raw prior : List Nat) (bpp : Nat)
    (hbpp : 0 < bpp) (hlen : raw.length ≤ prior.length)
    (hraw : ∀ x ∈ raw, x < 256) (hprior : ∀ x ∈ prior, x < 256) :
    rfpaeth (fpaethForward raw prior bpp) prior bpp = some raw := by
  have h := rfpaethGo_forward raw prior bpp hbpp hlen hraw hprior raw.length 0 (by omega)
  simpa [rfpaeth] using h

/-- Witness for claim C8 at `raw = [10, 200]`, `prior = [5, 7]`, `bpp = 1`. -/
theorem C8_witness :
    (0 < 1 ∧ ([10, 200] : List Nat).length ≤ ([5, 7] : List Nat).length ∧
     (∀ x ∈ ([10, 200] : List Nat), x < 256) ∧
     (∀ x ∈ ([5, 7] : List Nat), x < 256)) ∧
    rfpaeth (fpaethForward [10, 200] [5, 7] 1) [5, 7] 1 = some [10, 200] :=
  ⟨⟨by decide, by decide, by decide, by decide⟩,
   C8_paeth_roundtrip [10, 200] [5, 7] 1 (by decide) (by decide) (by decide) (by decide)⟩

/-! ## Claim C1: from_lengths under the Kraft inequality -/

/-- The spec mirror has one entry per symbol. -/
lemma length_codesSpecGo (L : List Nat) : ∀ f, (codesSpecGo f L).length = L.length := by
  induction L with
  | nil => intro f; rfl
  | cons a rest ih =>
    intro f
    by_cases ha : a = 0 <;> simp [codesSpecGo, ha, ih]

/-- Every value the `next_code` accumulator ever takes is a `u16`. -/
lemma nextCodeVal_lt (occ : Nat → Nat) (k : Nat) : nextCodeVal occ k < 65536 := by
  cases k with
  | zero => rw [nextCodeVal]; omega
  | succ k => exact Nat.mod_lt _ (by omega)

/-- The seed of a `max` fold bounds nothing from above: the fold only
grows. -/
lemma le_foldl_max_seed (L : List Nat) : ∀ s, s ≤ L.foldl max s := by
  induction L with
  | nil => intro s; exact le_rfl
  | cons a rest ih =>
    intro s
    exact le_trans (le_max_left s a) (ih (max s a))

/-- Every element is bounded by the `max` fold (the source's
`iter().max().unwrap()` on a nonempty slice). -/
lemma mem_le_foldl_max (L : List Nat) : ∀ s x, x ∈ L → x ≤ L.foldl max s := by
  induction L with
  | nil => intro _ x hx; cases hx
  | cons a rest ih =>
    intro s x hx
    rcases List.mem_cons.mp hx with rfl | hx'
    · exact le_trans (le_max_right s x) (le_foldl_max_seed rest (max s x))
    · exact ih (max s a) x hx'

/-- Reading a just-set position of a list through `getD`. -/
lemma getD_set_self (l : List Nat) (n : Nat) (a : Nat) (h : n < l.length) :
    (l.set n a).getD n 0 = a := by
  rw [List.getD_eq_getElem _ _ (by simpa using h)]
  exact List.getElem_set_self (by simpa using h)

/-- Reading any other position of a list through `getD` after a `set`. -/
lemma getD_set_ne (l : List Nat) (n m : Nat) (a : Nat) (h : n ≠ m) :
    (l.set n a).getD m 0 = l.getD m 0 := by
  rw [List.getD_eq_getElem?_getD, List.getElem?_set_ne h, ← List.getD_eq_getElem?_getD]

/-- The import of the assignment loop: started on counters that read
`f k % 65536` at every in-range length, `assignCodes` produces exactly the
spec mirror's codes. -/
lemma assignCodes_eq_spec :
    ∀ (rest : List Nat) (nc : List Nat) (f : Nat → Nat),
      (∀ x ∈ rest, x ≠ 0 → x < nc.length) →
      (∀ k, k < nc.length → nc.getD k 0 = f k % 65536) →
      (assignCodes nc rest).1 = codesSpecGo f rest := by
  intro rest
  induction rest with
  | nil => intro nc f _ _; rfl
  | cons len rest ih =>
    intro nc f hmem hval
    by_cases hlen : len = 0
    · subst hlen
      have ih' := ih nc f (fun x hx => hmem x (List.mem_cons_of_mem _ hx)) hval
      simp [assignCodes, codesSpecGo, ih']
    · have hlt : len < nc.length := hmem len (List.mem_cons_self _ _) hlen
      have hc : nc.getD len 0 = f len % 65536 := hval len hlt
      have hrec : (assignCodes (nc.set len ((f len + 1) % 65536)) rest).1 =
          codesSpecGo (fun k => if k = len then f k + 1 else f k) rest := by
        apply ih
        · intro x hx hx0
          rw [List.length_set]
          exact hmem x (List.mem_cons_of_mem _ hx) hx0
        · intro k hk
          rw [List.length_set] at hk
          by_cases hkl : k = len
          · subst hkl
            rw [getD_set_self nc k _ hk]
            simp
          · rw [getD_set_ne nc len k _ (fun h => hkl h.symm), hval k hk]
            simp [hkl]
      have hval2 : (nc.set len ((nc.getD len 0 + 1) % 65536)) =
          nc.set len ((f len + 1) % 65536) := by
        rw [hc, Nat.mod_add_mod]
      have hc2 : nc[len]?.getD 0 = f len % 65536 := by
        rw [← List.getD_eq_getElem?_getD]
        exact hc
      simp [assignCodes, codesSpecGo, hlen, hc, hc2, hval2, hrec]

/-- Elementwise description of the spec mirror: the code assigned to a
present symbol `j` is its length's counter plus the number of earlier
symbols of the same length, modulo `2^16`. -/
lemma codesSpecGo_get? :
    ∀ (L : List Nat) (f : Nat → Nat) (j : Nat), j < L.length →
      (codesSpecGo f L).get? j =
        some (if L.getD j 0 = 0 then none
          else some ((f (L.getD j 0) + (L.take j).count (L.getD j 0)) % 65536)) := by
  intro L
  induction L with
  | nil => intro f j hj; simp at hj
  | cons a rest ih =>
    intro f j hj
    by_cases ha : a = 0
    · subst ha
      cases j with
      | zero => simp [codesSpecGo]
      | succ j =>
        rw [codesSpecGo, if_pos rfl]
        show (codesSpecGo f rest).get? j = _
        rw [ih f j (by simpa using hj)]
        simp only [List.getD_cons_succ, List.take_succ_cons, List.count_cons,
          Option.some.injEq]
        rw [List.getD_eq_getElem?_getD]
        by_cases ht : rest[j]?.getD 0 = 0
        · simp [ht]
        · simp [ht, Ne.symm ht]
    · cases j with
      | zero =>
        rw [codesSpecGo, if_neg ha]
        show some (some (f a % 65536)) = _
        simp [ha]
      | succ j =>
        rw [codesSpecGo, if_neg ha]
        show (codesSpecGo _ rest).get? j = _
        rw [ih (fun k => if k = a then f k + 1 else f k) j (by simpa using hj)]
        simp only [List.getD_cons_succ, List.take_succ_cons, List.count_cons,
          Option.some.injEq]
        rw [List.getD_eq_getElem?_getD]
        by_cases ht : rest[j]?.getD 0 = 0
        · simp [ht]
        · by_cases hta : rest[j]?.getD 0 = a
          · simp [ht, hta]
            rw [if_neg ha, if_neg ha]
            congr 2
            omega
          · simp [ht, hta, Ne.symm hta]

/-- A key-value pair is a member of the map it was just inserted into. -/
lemma mem_btInsert_self (m : List (Code × Nat)) (k : Code) (v : Nat) :
    (k, v) ∈ btInsert m k v := by
  induction m with
  | nil => exact List.mem_cons_self _ _
  | cons p rest ih =>
    obtain ⟨a, b⟩ := p
    rw [btInsert]
    split
    · exact List.mem_cons_self _ _
    split
    · exact List.mem_cons_self _ _
    · exact List.mem_cons_of_mem _ ih

/-- Insertion of a different key preserves membership. -/
lemma mem_btInsert_of_ne (m : List (Code × Nat)) (k' : Code) (v' : Nat)
    (k : Code) (v : Nat) (hmem : (k', v') ∈ m) (hne : k' ≠ k) :
    (k', v') ∈ btInsert m k v := by
  induction m with
  | nil => cases hmem
  | cons p rest ih =>
    obtain ⟨a, b⟩ := p
    rw [btInsert]
    rcases List.mem_cons.mp hmem with heq | hmem'
    · split
      · exact List.mem_cons_of_mem _ (heq ▸ List.mem_cons_self _ _)
      split
      · next hka =>
        exfalso
        apply hne
        have : k' = a := congrArg Prod.fst heq
        rw [this, hka]
      · exact heq ▸ List.mem_cons_self _ _
    · split
      · exact List.mem_cons_of_mem _ (List.mem_cons_of_mem _ hmem')
      split
      · exact List.mem_cons_of_mem _ hmem'
      · exact List.mem_cons_of_mem _ (ih hmem')

/-- Entries of the accumulator survive `buildMap` as long as no later
insertion carries the same key. -/
lemma mem_buildMap_of_mem (L : List Nat) :
    ∀ (codes : List (Option Nat)) (index : Nat) (m : List (Code × Nat))
      (k : Code) (v : Nat),
      (k, v) ∈ m →
      (∀ j c, codes.get? j = some (some c) →
        Code.fromParts c (L.getD (index + j) 0) ≠ k) →
      (k, v) ∈ buildMap L codes index m := by
  intro codes
  induction codes with
  | nil => intro index m k v hm _; exact hm
  | cons oc rest ih =>
    intro index m k v hm hkeys
    cases oc with
    | none =>
      rw [buildMap]
      apply ih (index + 1) m k v hm
      intro j c hj
      have h := hkeys (j + 1) c (by simpa using hj)
      have harith : index + (j + 1) = index + 1 + j := by omega
      rwa [harith] at h
    | some c0 =>
      rw [buildMap]
      apply ih (index + 1) _ k v
      · refine mem_btInsert_of_ne m k v _ index hm ?_
        exact Ne.symm (by simpa using hkeys 0 c0 rfl)
      · intro j c hj
        have h := hkeys (j + 1) c (by simpa using hj)
        have harith : index + (j + 1) = index + 1 + j := by omega
        rwa [harith] at h

/-- A present symbol's key-value pair is a member of the built map, provided
no later present symbol carries the same key. -/
lemma mem_buildMap (L : List Nat) :
    ∀ (codes : List (Option Nat)) (index : Nat) (m : List (Code × Nat))
      (j : Nat) (c : Nat),
      codes.get? j = some (some c) →
      (∀ j' c', j < j' → codes.get? j' = some (some c') →
        Code.fromParts c' (L.getD (index + j') 0) ≠
          Code.fromParts c (L.getD (index + j) 0)) →
      (Code.fromParts c (L.getD (index + j) 0), index + j) ∈
        buildMap L codes index m := by
  intro codes
  induction codes with
  | nil => intro index m j c h; simp at h
  | cons oc rest ih =>
    intro index m j c hget hdist
    cases j with
    | zero =>
      have hoc : oc = some c := by simpa using hget
      subst hoc
      simp only [Nat.add_zero]
      rw [buildMap]
      apply mem_buildMap_of_mem
      · exact mem_btInsert_self m (Code.fromParts c (L.getD index 0)) index
      · intro j' c' hj'
        have h := hdist (j' + 1) c' (by omega) (by simpa using hj')
        have harith : index + (j' + 1) = index + 1 + j' := by omega
        rw [harith] at h
        simpa using h
    | succ j =>
      cases oc with
      | none =>
        rw [buildMap]
        have h := ih (index + 1) m j c (by simpa using hget) ?_
        · have harith : index + 1 + j = index + (j + 1) := by omega
          rwa [harith] at h
        · intro j' c' hjj hj'
          have h := hdist (j' + 1) c' (by omega) (by simpa using hj')
          have h1 : index + (j' + 1) = index + 1 + j' := by omega
          have h2 : index + (j + 1) = index + 1 + j := by omega
          rwa [h1, h2] at h
      | some c0 =>
        rw [buildMap]
        have h := ih (index + 1)
            (btInsert m (Code.fromParts c0 (L.getD index 0)) index) j c
            (by simpa using hget) ?_
        · have harith : index + 1 + j = index + (j + 1) := by omega
          rwa [harith] at h
        · intro j' c' hjj hj'
          have h := hdist (j' + 1) c' (by omega) (by simpa using hj')
          have h1 : index + (j' + 1) = index + 1 + j' := by omega
          have h2 : index + (j + 1) = index + 1 + j := by omega
          rwa [h1, h2] at h

/-- Peeling one entry off the Kraft sum. -/
lemma kraftSum_cons (a : Nat) (rest : List Nat) :
    kraftSum (a :: rest) = (if a = 0 then 0 else 2 ^ (15 - a)) + kraftSum rest := by
  by_cases ha : a = 0 <;> simp [kraftSum, List.filter_cons, ha]

/-- Each length class contributes its full weight to the Kraft sum. -/
lemma count_mul_le_kraftSum (L : List Nat) (t : Nat) (ht : t ≠ 0) :
    L.count t * 2 ^ (15 - t) ≤ kraftSum L := by
  induction L with
  | nil => simp [kraftSum]
  | cons a rest ih =>
    rw [kraftSum_cons, List.count_cons]
    by_cases hat : a = t
    · subst hat
      rw [if_neg ht]
      have hbeq : (a == a) = true := beq_self_eq_true a
      simp only [hbeq, if_true]
      have hmul : (rest.count a + 1) * 2 ^ (15 - a) =
          rest.count a * 2 ^ (15 - a) + 2 ^ (15 - a) := by ring
      rw [hmul]
      omega
    · have hbeq : (a == t) = false := beq_eq_false_iff_ne.mpr hat
      simp only [hbeq, Bool.false_eq_true, if_false, Nat.add_zero]
      have hnn : 0 ≤ if a = 0 then 0 else 2 ^ (15 - a) := Nat.zero_le _
      omega

/-- Under the Kraft inequality a length class of nonzero length `t ≤ 15` has
at most `2 ^ t` members. -/
lemma count_le_pow_of_kraft (L : List Nat) (t : Nat) (ht : t ≠ 0) (hle : t ≤ 15)
    (hk : kraftSum L ≤ 2 ^ 15) : L.count t ≤ 2 ^ t := by
  have h1 := count_mul_le_kraftSum L t ht
  have h2 : 2 ^ t * 2 ^ (15 - t) = 2 ^ 15 := by
    rw [← pow_add]
    congr 1
    omega
  have h3 : L.count t * 2 ^ (15 - t) ≤ 2 ^ t * 2 ^ (15 - t) := by
    rw [h2]
    exact le_trans h1 hk
  exact Nat.le_of_mul_le_mul_right h3 (pow_pos (by omega) _)

/-- Two distinct symbols of the same nonzero code length receive distinct
code values: their per-length counters differ, both are bounded by the class
size, which the Kraft inequality keeps below `2 ^ 16`, so the `u16`
increments never collide. -/
lemma codeAt_strict (L : List Nat) (hb : ∀ x ∈ L, x ≤ 15)
    (hkraft : kraftSum L ≤ 2 ^ 15) :
    ∀ p q, p < q → q < L.length → L.getD p 0 ≠ 0 → L.getD p 0 = L.getD q 0 →
      codeAt L p ≠ codeAt L q := by
  intro p q hpq hq hpz heq
  have hp : p < L.length := lt_trans hpq hq
  have htmem : L.getD p 0 ∈ L := by
    rw [List.getD_eq_getElem _ _ hp]
    exact List.getElem_mem _
  have ht15 : L.getD p 0 ≤ 15 := hb _ htmem
  have hcount : L.count (L.getD p 0) ≤ 2 ^ (L.getD p 0) :=
    count_le_pow_of_kraft L _ hpz ht15 hkraft
  have hcount' : L.count (L.getD p 0) ≤ 32768 := by
    have h2t : 2 ^ (L.getD p 0) ≤ 2 ^ 15 := Nat.pow_le_pow_right (by omega) ht15
    have h15 : (2 : Nat) ^ 15 = 32768 := by norm_num
    omega
  have hsucc : (L.take (p + 1)).count (L.getD p 0) =
      (L.take p).count (L.getD p 0) + 1 := by
    rw [List.take_succ, List.count_append]
    have hgp : L[p]? = some (L.getD p 0) := by
      rw [List.getD_eq_getElem _ _ hp]
      exact List.getElem?_eq_getElem hp
    rw [hgp]
    simp
  have hmono : (L.take (p + 1)).count (L.getD p 0) ≤
      (L.take q).count (L.getD p 0) := by
    have hsplit : L.take q = L.take (p + 1) ++ (L.drop (p + 1)).take (q - (p + 1)) := by
      rw [← List.take_add]
      congr 1
      omega
    rw [hsplit, List.count_append]
    omega
  have hqle : (L.take q).count (L.getD p 0) ≤ L.count (L.getD p 0) :=
    (List.take_sublist q L).count_le _
  have hple : (L.take p).count (L.getD p 0) ≤ L.count (L.getD p 0) :=
    (List.take_sublist p L).count_le _
  unfold codeAt
  rw [← heq]
  intro habs
  omega

/-- The pair keys of two distinct present symbols never coincide: for equal
lengths the code values differ (`codeAt_strict`), and for distinct lengths
the `length` component of the key separates them. -/
lemma keys_distinct (L : List Nat) (hb : ∀ x ∈ L, x ≤ 15)
    (hkraft : kraftSum L ≤ 2 ^ 15) :
    ∀ p q, p < L.length → q < L.length → L.getD p 0 ≠ 0 → L.getD q 0 ≠ 0 → p ≠ q →
      Code.fromParts (codeAt L p) (L.getD p 0) ≠
        Code.fromParts (codeAt L q) (L.getD q 0) := by
  intro p q hp hq hpz hqz hpq habs
  have h1 : codeAt L p = codeAt L q := congrArg Code.buffer habs
  have h2 : L.getD p 0 = L.getD q 0 := congrArg Code.length habs
  rcases Nat.lt_or_ge p q with h | h
  · exact codeAt_strict L hb hkraft p q h hq hpz h2 h1
  · exact codeAt_strict L hb hkraft q p (by omega) hp hqz h2.symm h1.symm

/-- Claim C1 (amended): for every *nonempty* length vector with entries at
most 15 (DEFLATE's maximum code length) whose non-zero entries satisfy the
Kraft inequality, `from_lengths` succeeds, assigns every present symbol `i`
a key whose length component is exactly `L[i]`, and no two present symbols
share a `(code, length)` key — the map key compares buffer and length, so
code 0 of length 1 and code 0 of length 2 are distinct keys. -/
theorem C1_from_lengths_kraft (L : List Nat) (hne : L ≠ [])
    (hb : ∀ x ∈ L, x ≤ 15) (hkraft : kraftSum L ≤ 2 ^ 15) :
    ∃ m : PrefixCodeMap, PrefixCodeMap.from_lengths L = some m ∧
      ∀ i, i < L.length → L.getD i 0 ≠ 0 →
        (Code.fromParts (codeAt L i) (L.getD i 0), i) ∈ m.map ∧
        ∀ j, j < L.length → L.getD j 0 ≠ 0 → j ≠ i →
          Code.fromParts (codeAt L j) (L.getD j 0) ≠
            Code.fromParts (codeAt L i) (L.getD i 0) := by
  have hVne : L.isEmpty = false := List.isEmpty_eq_false.mpr hne
  have hcodes : (assignCodes
        ((List.range (L.foldl max 0 + 1)).map (nextCodeVal (occurancesOf L))) L).1 =
      codesSpecGo (nextCodeVal (occurancesOf L)) L := by
    apply assignCodes_eq_spec
    · intro x hx hx0
      rw [List.length_map, List.length_range]
      have := mem_le_foldl_max L 0 x hx
      omega
    · intro k hk
      rw [List.length_map, List.length_range] at hk
      rw [getD_range_map _ (by omega)]
      exact (Nat.mod_eq_of_lt (nextCodeVal_lt _ k)).symm
  have hfl : PrefixCodeMap.from_lengths L =
      some ⟨buildMap L (codesSpecGo (nextCodeVal (occurancesOf L)) L) 0 []⟩ := by
    rw [PrefixCodeMap.from_lengths]
    simp only [hVne, Bool.false_eq_true, if_false]
    rw [hcodes]
  refine ⟨_, hfl, ?_⟩
  have hclen : (codesSpecGo (nextCodeVal (occurancesOf L)) L).length = L.length :=
    length_codesSpecGo L _
  have hkey : ∀ j, j < L.length → L.getD j 0 ≠ 0 →
      (codesSpecGo (nextCodeVal (occurancesOf L)) L).get? j =
        some (some (codeAt L j)) := by
    intro j hj hjz
    rw [codesSpecGo_get? L _ j hj, if_neg hjz]
    rfl
  have hkeyinv : ∀ j c,
      (codesSpecGo (nextCodeVal (occurancesOf L)) L).get? j = some (some c) →
      j < L.length ∧ L.getD j 0 ≠ 0 ∧ c = codeAt L j := by
    intro j c hj
    have hjlen : j < L.length := by
      by_contra hcon
      have : (codesSpecGo (nextCodeVal (occurancesOf L)) L).get? j = none :=
        List.get?_eq_none.mpr (by omega)
      rw [this] at hj
      cases hj
    have h2 := codesSpecGo_get? L (nextCodeVal (occurancesOf L)) j hjlen
    rw [hj] at h2
    by_cases hz : L.getD j 0 = 0
    · rw [if_pos hz] at h2
      simp at h2
    · rw [if_neg hz] at h2
      refine ⟨hjlen, hz, ?_⟩
      have h3 := Option.some.inj (Option.some.inj h2)
      rw [h3]
      rfl
  intro i hi hiz
  constructor
  · have hmem := mem_buildMap L (codesSpecGo (nextCodeVal (occurancesOf L)) L) 0 []
        i (codeAt L i) (hkey i hi hiz) ?_
    · simpa using hmem
    · intro j' c' hij' hj'
      obtain ⟨hj'len, hj'z, rfl⟩ := hkeyinv j' c' hj'
      simp only [Nat.zero_add]
      exact keys_distinct L hb hkraft j' i hj'len hi hj'z hiz (by omega)
  · intro j hj hjz hji
    exact keys_distinct L hb hkraft j i hj hi hjz hiz hji

/-- Witness for claim C1 (amended) at `L = [1, 1]`: the two symbols receive
the single-bit codes 0 and 1, and `kraftSum [1, 1] = 2 ^ 15` meets the Kraft
bound with equality. -/
theorem C1_witness :
    (([1, 1] : List Nat) ≠ [] ∧ (∀ x ∈ ([1, 1] : List Nat), x ≤ 15) ∧
      kraftSum [1, 1] ≤ 2 ^ 15) ∧
    (∃ m : PrefixCodeMap, PrefixCodeMap.from_lengths [1, 1] = some m ∧
      ∀ i, i < ([1, 1] : List Nat).length → ([1, 1] : List Nat).getD i 0 ≠ 0 →
        (Code.fromParts (codeAt [1, 1] i) (([1, 1] : List Nat).getD i 0), i) ∈ m.map ∧
        ∀ j, j < ([1, 1] : List Nat).length → ([1, 1] : List Nat).getD j 0 ≠ 0 → j ≠ i →
          Code.fromParts (codeAt [1, 1] j) (([1, 1] : List Nat).getD j 0) ≠
            Code.fromParts (codeAt [1, 1] i) (([1, 1] : List Nat).getD i 0)) :=
  ⟨⟨by decide, by decide, by decide⟩,
   C1_from_lengths_kraft [1, 1] (by decide) (by decide) (by decide)⟩

end Chameleon
